import Mathlib

/-
Verification of the RLE image scanline iterator
(src/include/itkRLEImageScanlineConstIterator.h).

A scanline of an RLE image is stored as a list of runs, each a
(length, value) pair (std::pair<CounterType, PixelType>; `.first` is the
length).  The iterator state (the fields of ImageScanlineConstIterator and
its ImageRegionConstIterator base) is embedded as the `Cursor` structure:
`m_Index0` (a signed IndexValueType) becomes `index0 : Int`, the unsigned
`m_SegmentRemainder` (CounterType) and `m_RealIndex` (size_t) become `Nat`.
Scanlines are addressed with column 0 as the first buffered pixel of the
line, so a region aligned with the line start has `beginIndex0 = 0`.

Unsigned under/overflow of `m_SegmentRemainder` and `m_RealIndex` (which in
the C++ can only occur in states that already index the run vector out of
bounds, i.e. outside the documented contract) is not wrapped here: the
theorems carry the hypotheses that exclude those states.
-/

namespace RLE

/-- One run of an RLE scanline: a span of `length` consecutive pixels that
share `value` (std::pair<CounterType, PixelType>). -/
structure RLRun where
  length : Nat
  value : Nat
  deriving DecidableEq

/-- State of the scanline iterator: the fields `m_Index0`, `m_BeginIndex0`,
`m_EndIndex0`, `m_RealIndex`, `m_SegmentRemainder` and the contents of
`*m_RunLengthLine`. -/
structure Cursor where
  index0 : Int
  beginIndex0 : Int
  endIndex0 : Int
  realIndex : Nat
  segmentRemainder : Nat
  line : List RLRun
  deriving DecidableEq

/-- Read of `(*m_RunLengthLine)[i]`; out-of-range access (undefined in the
C++) yields the zero run. -/
def runAt (runs : List RLRun) (i : Nat) : RLRun :=
  runs.getD i ⟨0, 0⟩

/-- Total number of pixels covered by a list of runs (the full buffered
width of the line). -/
def totalLen : List RLRun → Nat
  | [] => 0
  | r :: rest => r.length + totalLen rest

/-- Number of pixels covered by the first `i` runs (cumulative run-length
prefix). -/
def cumLen : List RLRun → Nat → Nat
  | _, 0 => 0
  | [], _ + 1 => 0
  | r :: rest, i + 1 => r.length + cumLen rest i

/-- Cumulative run decoding of a line: the list of per-pixel values. -/
def decode : List RLRun → List Nat
  | [] => []
  | r :: rest => List.replicate r.length r.value ++ decode rest

/-- Value of the pixel in column `p` of a line, under cumulative run
decoding. -/
def pixelAt (runs : List RLRun) (p : Nat) : Nat :=
  (decode runs).getD p 0

/-- Data-model invariant of a Line: every run length is positive. -/
def PosLens (runs : List RLRun) : Prop :=
  ∀ r ∈ runs, 1 ≤ r.length

instance (runs : List RLRun) : Decidable (PosLens runs) :=
  List.decidableBAll _ runs

/-- GoToBeginOfLine: `m_Index0 = m_BeginIndex0; m_RealIndex = 0;
m_SegmentRemainder = (*m_RunLengthLine)[m_RealIndex].first`. -/
def goToBeginOfLine (s : Cursor) : Cursor :=
  { s with index0 := s.beginIndex0, realIndex := 0,
           segmentRemainder := (runAt s.line 0).length }

/-- GoToEndOfLine: `m_Index0 = m_EndIndex0;
m_RealIndex = m_RunLengthLine->size() - 1; m_SegmentRemainder = 0`. -/
def goToEndOfLine (s : Cursor) : Cursor :=
  { s with index0 := s.endIndex0, realIndex := s.line.length - 1,
           segmentRemainder := 0 }

/-- IsAtEndOfLine: `m_Index0 == m_EndIndex0`. -/
def isAtEndOfLine (s : Cursor) : Bool :=
  s.index0 == s.endIndex0

/-- operator++ : `m_Index0++; m_SegmentRemainder--;` then if the remainder
is still positive, done; else if at end of line, done; else
`m_RealIndex++; m_SegmentRemainder = (*m_RunLengthLine)[m_RealIndex].first`. -/
def inc (s : Cursor) : Cursor :=
  let s1 : Cursor :=
    { s with index0 := s.index0 + 1, segmentRemainder := s.segmentRemainder - 1 }
  if 0 < s1.segmentRemainder then s1
  else if isAtEndOfLine s1 then s1
  else { s1 with realIndex := s1.realIndex + 1,
                 segmentRemainder := (runAt s1.line (s1.realIndex + 1)).length }

/-- operator-- : `m_Index0--; m_SegmentRemainder++;` then if the remainder
is within the current run, done; else
`m_RealIndex--; m_SegmentRemainder = 1`. -/
def dec (s : Cursor) : Cursor :=
  let s1 : Cursor :=
    { s with index0 := s.index0 - 1, segmentRemainder := s.segmentRemainder + 1 }
  if s1.segmentRemainder ≤ (runAt s1.line s1.realIndex).length then s1
  else { s1 with realIndex := s1.realIndex - 1, segmentRemainder := 1 }

/-- Forward-consistent cursor state (spec section 3): the cursor is inside
the region, the current run exists, the remainder counts the pixels from
`index0` inclusive to the end of run `realIndex`, i.e.
`index0 = cumLen (realIndex + 1) - segmentRemainder` with
`1 ≤ segmentRemainder ≤ run[realIndex].length`. -/
def ForwardConsistent (s : Cursor) : Prop :=
  0 ≤ s.index0 ∧ s.index0 < s.endIndex0 ∧
  s.endIndex0 ≤ (totalLen s.line : Int) ∧
  s.realIndex < s.line.length ∧
  1 ≤ s.segmentRemainder ∧
  s.segmentRemainder ≤ (runAt s.line s.realIndex).length ∧
  s.index0 = (cumLen s.line (s.realIndex + 1) : Int) - (s.segmentRemainder : Int)

instance (s : Cursor) : Decidable (ForwardConsistent s) := by
  unfold ForwardConsistent
  infer_instance

/-- Fuel-indexed forward traversal loop: while not at end of line, observe
`run[realIndex].value` and step forward. -/
def travLoop : Nat → Cursor → List Nat
  | 0, _ => []
  | n + 1, s =>
      if isAtEndOfLine s then []
      else (runAt s.line s.realIndex).value :: travLoop n (inc s)

/-- Full forward traversal of the current line: `goToBeginOfLine()` then
forward steps until `isAtEndOfLine()`. -/
def forwardTraversal (s : Cursor) : List Nat :=
  travLoop ((s.endIndex0 - s.beginIndex0).toNat + 1) (goToBeginOfLine s)

/-- Fuel-indexed backward traversal loop: while `index0` has not reached
`beginIndex0`, step backward and observe `run[realIndex].value`. -/
def backLoop : Nat → Cursor → List Nat
  | 0, _ => []
  | n + 1, s =>
      if s.index0 ≤ s.beginIndex0 then []
      else (runAt (dec s).line (dec s).realIndex).value :: backLoop n (dec s)

/-- Full backward traversal of the current line: `goToEndOfLine()` then
backward steps until `index0` reaches `beginIndex0`. -/
def backwardTraversal (s : Cursor) : List Nat :=
  backLoop ((s.endIndex0 - s.beginIndex0).toNat + 1) (goToEndOfLine s)

/-- Modelled from the spec: the run/remainder lookup of the Run and Line
store (spec section 4.1), used by the general seek.  It lives in the base
class header (itkRLEImageRegionConstIterator.h), which is not part of the
sources here.  Given a column `c` in `[0, fullWidth)`, it returns the index
of the owning run and the number of pixels from `c` (inclusive) to the end
of that run. -/
def seekRun : List RLRun → Nat → Nat × Nat
  | [], _ => (0, 0)
  | r :: rest, c =>
      if c < r.length then (0, r.length - c)
      else ((seekRun rest (c - r.length)).1 + 1, (seekRun rest (c - r.length)).2)

/-- Modelled from the spec: `SetIndexInternal`, the Region cursor's general
seek (spec section 4.3), defined in the base class header that is not part
of the sources here.  It re-derives `(realIndex, segmentRemainder)` for an
arbitrary column via the store lookup and installs the given line. -/
def setIndexInternal (newLine : List RLRun) (s : Cursor) (ind : Int) : Cursor :=
  { s with index0 := ind,
           realIndex := (seekRun newLine ind.toNat).1,
           segmentRemainder := (seekRun newLine ind.toNat).2,
           line := newLine }

/-- Modelled from the spec: the Line enumerator (`m_BI`, spec section 4.2)
paired with the scanline cursor.  `lines` are the region's Lines in
enumeration order and `pos` is the enumerator's position; the enumerator is
exhausted once `pos` has moved past the last line. -/
structure MCursor where
  lines : List (List RLRun)
  pos : Nat
  cur : Cursor
  deriving DecidableEq

/-- NextLine: `++m_BI;` then, if the enumerator is not at its end,
`SetIndexInternal(m_BeginIndex0)` on the new line; otherwise
`m_Index0 = m_BeginIndex0` (sentinel, "make this iterator at end too").
The enumerator and the general seek are modelled from the spec (sections
4.2 and 4.3); the branch structure is the source's. -/
def nextLine (m : MCursor) : MCursor :=
  if m.pos + 1 < m.lines.length then
    { m with pos := m.pos + 1,
             cur := setIndexInternal (m.lines.getD (m.pos + 1) []) m.cur
                      m.cur.beginIndex0 }
  else
    { m with pos := m.pos + 1,
             cur := { m.cur with index0 := m.cur.beginIndex0 } }

/-- Sample line (runs (3,10), (2,20), (4,30), full width 9) used by the
concrete witness instances below. -/
def demoRuns : List RLRun := [⟨3, 10⟩, ⟨2, 20⟩, ⟨4, 30⟩]

theorem cumLen_zero (runs : List RLRun) : cumLen runs 0 = 0 := by
  cases runs <;> rfl

theorem cumLen_succ (runs : List RLRun) (i : Nat) (h : i < runs.length) :
    cumLen runs (i + 1) = cumLen runs i + (runAt runs i).length := by
  induction runs generalizing i with
  | nil => simp at h
  | cons r rest ih =>
    cases i with
    | zero => simp [cumLen, runAt]
    | succ j =>
      have hj : j < rest.length := by simpa using h
      simp only [cumLen, runAt, List.getD_cons_succ] at *
      rw [ih j hj]
      omega

theorem cumLen_of_length_le (runs : List RLRun) (i : Nat) (h : runs.length ≤ i) :
    cumLen runs i = totalLen runs := by
  induction runs generalizing i with
  | nil => cases i <;> rfl
  | cons r rest ih =>
    cases i with
    | zero => simp at h
    | succ j =>
      have hj : rest.length ≤ j := by simpa using h
      simp only [cumLen, totalLen, ih j hj]

theorem cumLen_le_totalLen (runs : List RLRun) (i : Nat) :
    cumLen runs i ≤ totalLen runs := by
  induction runs generalizing i with
  | nil => cases i <;> simp [cumLen, totalLen]
  | cons r rest ih =>
    cases i with
    | zero => simp [cumLen, totalLen]
    | succ j =>
      have := ih j
      simp only [cumLen, totalLen]
      omega

theorem lt_length_of_cumLen_lt (runs : List RLRun) (i : Nat)
    (h : cumLen runs i < totalLen runs) : i < runs.length := by
  by_contra hc
  push_neg at hc
  rw [cumLen_of_length_le runs i hc] at h
  omega

theorem decode_length (runs : List RLRun) : (decode runs).length = totalLen runs := by
  induction runs with
  | nil => rfl
  | cons r rest ih => simp [decode, totalLen, ih]

theorem posLens_runAt (runs : List RLRun) (hp : PosLens runs) (i : Nat)
    (h : i < runs.length) : 1 ≤ (runAt runs i).length := by
  have heq : runAt runs i = runs[i] := List.getD_eq_getElem runs ⟨0, 0⟩ h
  rw [heq]
  exact hp _ (List.getElem_mem h)

theorem totalLen_pos (runs : List RLRun) (hp : PosLens runs) (hne : runs ≠ []) :
    1 ≤ totalLen runs := by
  cases runs with
  | nil => simp at hne
  | cons r rest =>
    have : 1 ≤ r.length := hp r (by simp)
    simp only [totalLen]
    omega

theorem decode_getD (runs : List RLRun) (j p : Nat) (hj : j < runs.length)
    (h1 : cumLen runs j ≤ p) (h2 : p < cumLen runs (j + 1)) :
    (decode runs).getD p 0 = (runAt runs j).value := by
  induction runs generalizing j p with
  | nil => simp at hj
  | cons r rest ih =>
    cases j with
    | zero =>
      have hp' : p < r.length := by
        have : cumLen (r :: rest) 1 = r.length + cumLen rest 0 := rfl
        rw [this, cumLen_zero] at h2
        omega
      have hlt : p < (List.replicate r.length r.value).length := by
        simpa using hp'
      rw [decode, List.getD_append _ _ _ _ hlt, runAt, List.getD_cons_zero]
      rw [List.getD_eq_getElem _ _ hlt]
      exact List.getElem_replicate r.value hlt
    | succ j' =>
      have hj' : j' < rest.length := by simpa using hj
      have hc1 : r.length + cumLen rest j' ≤ p := by
        simpa [cumLen] using h1
      have hc2 : p < r.length + cumLen rest (j' + 1) := by
        simpa [cumLen] using h2
      have hge : (List.replicate r.length r.value).length ≤ p := by
        simp
        omega
      rw [decode, List.getD_append_right _ _ _ _ hge, runAt, List.getD_cons_succ]
      have : (List.replicate r.length r.value).length = r.length := by simp
      rw [this]
      exact ih j' (p - r.length) hj' (by omega) (by omega)

theorem inc_of_rem_gt (s : Cursor) (h : 2 ≤ s.segmentRemainder) :
    inc s = { s with index0 := s.index0 + 1,
                     segmentRemainder := s.segmentRemainder - 1 } := by
  have h1 : 0 < s.segmentRemainder - 1 := by omega
  simp [inc, h1]

theorem inc_of_line_end (s : Cursor) (h : s.segmentRemainder = 1)
    (he : s.index0 + 1 = s.endIndex0) :
    inc s = { s with index0 := s.index0 + 1, segmentRemainder := 0 } := by
  simp [inc, isAtEndOfLine, h, he]

theorem inc_of_cross (s : Cursor) (h : s.segmentRemainder = 1)
    (he : s.index0 + 1 ≠ s.endIndex0) :
    inc s = { s with index0 := s.index0 + 1, realIndex := s.realIndex + 1,
                     segmentRemainder := (runAt s.line (s.realIndex + 1)).length } := by
  simp [inc, isAtEndOfLine, h, he]

theorem dec_of_stay (s : Cursor)
    (h : s.segmentRemainder + 1 ≤ (runAt s.line s.realIndex).length) :
    dec s = { s with index0 := s.index0 - 1,
                     segmentRemainder := s.segmentRemainder + 1 } := by
  simp [dec, h]

theorem dec_of_cross (s : Cursor)
    (h : (runAt s.line s.realIndex).length < s.segmentRemainder + 1) :
    dec s = { s with index0 := s.index0 - 1, realIndex := s.realIndex - 1,
                     segmentRemainder := 1 } := by
  have h1 : ¬ (s.segmentRemainder + 1 ≤ (runAt s.line s.realIndex).length) := by omega
  simp [dec, h1]

theorem inc_fields (s : Cursor) :
    (inc s).index0 = s.index0 + 1 ∧ (inc s).beginIndex0 = s.beginIndex0 ∧
    (inc s).endIndex0 = s.endIndex0 ∧ (inc s).line = s.line := by
  unfold inc
  dsimp only
  split
  · exact ⟨rfl, rfl, rfl, rfl⟩
  · split
    · exact ⟨rfl, rfl, rfl, rfl⟩
    · exact ⟨rfl, rfl, rfl, rfl⟩

theorem dec_fields (s : Cursor) :
    (dec s).index0 = s.index0 - 1 ∧ (dec s).beginIndex0 = s.beginIndex0 ∧
    (dec s).endIndex0 = s.endIndex0 ∧ (dec s).line = s.line := by
  unfold dec
  dsimp only
  split
  · exact ⟨rfl, rfl, rfl, rfl⟩
  · exact ⟨rfl, rfl, rfl, rfl⟩

theorem consistent_colRange (s : Cursor) (hc : ForwardConsistent s) :
    cumLen s.line s.realIndex ≤ s.index0.toNat ∧
    s.index0.toNat < cumLen s.line (s.realIndex + 1) := by
  obtain ⟨h0, h1, h2, h3, h4, h5, h6⟩ := hc
  have hs := cumLen_succ s.line s.realIndex h3
  omega

theorem consistent_pixel (s : Cursor) (hc : ForwardConsistent s) :
    pixelAt s.line s.index0.toNat = (runAt s.line s.realIndex).value := by
  obtain ⟨hr1, hr2⟩ := consistent_colRange s hc
  exact decode_getD s.line s.realIndex s.index0.toNat hc.2.2.2.1 hr1 hr2

theorem inc_consistent (s : Cursor) (hc : ForwardConsistent s) (hp : PosLens s.line)
    (hlt : s.index0 + 1 < s.endIndex0) : ForwardConsistent (inc s) := by
  obtain ⟨h0, h1, h2, h3, h4, h5, h6⟩ := hc
  by_cases hr : 2 ≤ s.segmentRemainder
  · rw [inc_of_rem_gt s hr]
    refine ⟨?_, ?_, ?_, ?_, ?_, ?_, ?_⟩ <;> (try dsimp only) <;> omega
  · have hr1 : s.segmentRemainder = 1 := by omega
    have hne : s.index0 + 1 ≠ s.endIndex0 := by omega
    have hcum : (cumLen s.line (s.realIndex + 1) : Int) = s.index0 + 1 := by omega
    have hlt2 : cumLen s.line (s.realIndex + 1) < totalLen s.line := by omega
    have hi2 : s.realIndex + 1 < s.line.length := lt_length_of_cumLen_lt _ _ hlt2
    have hpos : 1 ≤ (runAt s.line (s.realIndex + 1)).length := posLens_runAt _ hp _ hi2
    have hsucc := cumLen_succ s.line (s.realIndex + 1) hi2
    rw [inc_of_cross s hr1 hne]
    refine ⟨?_, ?_, ?_, ?_, ?_, ?_, ?_⟩ <;> (try dsimp only) <;> omega

theorem dec_consistent (s : Cursor) (hc : ForwardConsistent s) (hp : PosLens s.line)
    (h1i : 1 ≤ s.index0) : ForwardConsistent (dec s) := by
  obtain ⟨h0, h1, h2, h3, h4, h5, h6⟩ := hc
  by_cases hin : s.segmentRemainder + 1 ≤ (runAt s.line s.realIndex).length
  · rw [dec_of_stay s hin]
    refine ⟨?_, ?_, ?_, ?_, ?_, ?_, ?_⟩ <;> (try dsimp only) <;> omega
  · push_neg at hin
    have hsucc := cumLen_succ s.line s.realIndex h3
    have hidx : s.index0 = (cumLen s.line s.realIndex : Int) := by omega
    have hi1 : 1 ≤ s.realIndex := by
      by_contra hz
      push_neg at hz
      have hz0 : s.realIndex = 0 := by omega
      rw [hz0, cumLen_zero] at hidx
      omega
    have hi3 : s.realIndex - 1 < s.line.length := by omega
    have hpos : 1 ≤ (runAt s.line (s.realIndex - 1)).length := posLens_runAt _ hp _ hi3
    have hstep : s.realIndex - 1 + 1 = s.realIndex := by omega
    have hc2 : cumLen s.line (s.realIndex - 1 + 1) = cumLen s.line s.realIndex := by
      rw [hstep]
    rw [dec_of_cross s (by omega)]
    refine ⟨?_, ?_, ?_, ?_, ?_, ?_, ?_⟩ <;> (try dsimp only) <;> omega

theorem goToBeginOfLine_consistent (s : Cursor) (hb : s.beginIndex0 = 0)
    (hne : s.line ≠ []) (hp : PosLens s.line) (he1 : 0 < s.endIndex0)
    (he2 : s.endIndex0 ≤ (totalLen s.line : Int)) :
    ForwardConsistent (goToBeginOfLine s) := by
  have hl : 0 < s.line.length := List.length_pos.mpr hne
  have hpos : 1 ≤ (runAt s.line 0).length := posLens_runAt _ hp _ hl
  have hsucc := cumLen_succ s.line 0 hl
  have hz := cumLen_zero s.line
  unfold goToBeginOfLine
  refine ⟨?_, ?_, ?_, ?_, ?_, ?_, ?_⟩ <;> (try dsimp only) <;> omega

theorem dec_goToEnd_consistent (s : Cursor) (hp : PosLens s.line) (hne : s.line ≠ [])
    (he : s.endIndex0 = (totalLen s.line : Int)) :
    ForwardConsistent (dec (goToEndOfLine s)) ∧
    (dec (goToEndOfLine s)).index0 = s.endIndex0 - 1 ∧
    (dec (goToEndOfLine s)).beginIndex0 = s.beginIndex0 ∧
    (dec (goToEndOfLine s)).line = s.line := by
  have hl : 0 < s.line.length := List.length_pos.mpr hne
  have hW : 1 ≤ totalLen s.line := totalLen_pos s.line hp hne
  have hll : s.line.length - 1 < s.line.length := by omega
  have hpos : 1 ≤ (runAt s.line (s.line.length - 1)).length := posLens_runAt _ hp _ hll
  have hcum : cumLen s.line (s.line.length - 1 + 1) = totalLen s.line := by
    have hstep : s.line.length - 1 + 1 = s.line.length := by omega
    rw [hstep]
    exact cumLen_of_length_le _ _ (le_refl _)
  have hstay := dec_of_stay (goToEndOfLine s) (by simpa [goToEndOfLine] using hpos)
  rw [hstay]
  refine ⟨⟨?_, ?_, ?_, ?_, ?_, ?_, ?_⟩, rfl, rfl, rfl⟩ <;>
    (try dsimp only [goToEndOfLine]) <;> omega

theorem drop_take_step (l : List Nat) (c k : Nat) (hc : c < l.length) (hk : 1 ≤ k) :
    (l.drop c).take k = l.getD c 0 :: (l.drop (c + 1)).take (k - 1) := by
  cases k with
  | zero => omega
  | succ k' =>
    rw [List.drop_eq_getElem_cons hc, List.getD_eq_getElem l 0 hc, List.take_succ_cons,
      Nat.add_sub_cancel]

theorem take_reverse_step (l : List Nat) (c : Nat) (hc : c - 1 < l.length)
    (hc1 : 1 ≤ c) : (l.take c).reverse = l.getD (c - 1) 0 :: (l.take (c - 1)).reverse := by
  have h2 : l.take (c - 1) ++ [l.getD (c - 1) 0] = l.take c := by
    rw [List.getD_eq_getElem l 0 hc]
    have h3 := List.take_concat_get' l (c - 1) hc
    rwa [Nat.sub_add_cancel hc1] at h3
  rw [← h2]
  simp

theorem isAtEndOfLine_travLoop (n : Nat) (s : Cursor) (h : s.index0 = s.endIndex0) :
    travLoop n s = [] := by
  cases n with
  | zero => rfl
  | succ n' => simp [travLoop, isAtEndOfLine, h]

theorem travLoop_eq (n : Nat) : ∀ s : Cursor, ForwardConsistent s → PosLens s.line →
    (s.endIndex0 - s.index0).toNat ≤ n →
    travLoop n s = ((decode s.line).drop s.index0.toNat).take (s.endIndex0 - s.index0).toNat := by
  induction n with
  | zero =>
    intro s hc _ hn
    obtain ⟨h0, h1, _, _, _, _, _⟩ := hc
    omega
  | succ n' ih =>
    intro s hc hp hn
    have h0 := hc.1
    have h1 := hc.2.1
    have hW := hc.2.2.1
    have hcr := consistent_colRange s hc
    have hcl : s.index0.toNat < (decode s.line).length := by
      rw [decode_length]
      have := cumLen_le_totalLen s.line (s.realIndex + 1)
      omega
    have hguard : isAtEndOfLine s = false := by
      simp [isAtEndOfLine]
      omega
    rw [travLoop, hguard]
    simp only [Bool.false_eq_true, if_false]
    have hval : (runAt s.line s.realIndex).value = (decode s.line).getD s.index0.toNat 0 :=
      (consistent_pixel s hc).symm
    have hfld := inc_fields s
    by_cases hend : s.index0 + 1 = s.endIndex0
    · have htail : travLoop n' (inc s) = [] :=
        isAtEndOfLine_travLoop n' (inc s) (by rw [hfld.1, hfld.2.2.1, hend])
      rw [htail]
      have hk : (s.endIndex0 - s.index0).toNat = 1 := by omega
      rw [hk, drop_take_step (decode s.line) s.index0.toNat 1 hcl (le_refl 1), hval]
      simp
    · have hlt : s.index0 + 1 < s.endIndex0 := by omega
      have hc2 : ForwardConsistent (inc s) := inc_consistent s hc hp hlt
      have htail := ih (inc s) hc2 (by rw [hfld.2.2.2]; exact hp)
        (by rw [hfld.1, hfld.2.2.1]; omega)
      rw [htail, hfld.1, hfld.2.2.1, hfld.2.2.2]
      have hk : 1 ≤ (s.endIndex0 - s.index0).toNat := by omega
      rw [drop_take_step (decode s.line) s.index0.toNat _ hcl hk, hval]
      have hn1 : (s.endIndex0 - (s.index0 + 1)).toNat = (s.endIndex0 - s.index0).toNat - 1 := by
        omega
      have hn2 : (s.index0 + 1).toNat = s.index0.toNat + 1 := by omega
      rw [hn1, hn2]

theorem forwardTraversal_eq_decode (s : Cursor) (hp : PosLens s.line)
    (hne : s.line ≠ []) (hb : s.beginIndex0 = 0)
    (he : s.endIndex0 = (totalLen s.line : Int)) :
    forwardTraversal s = decode s.line := by
  have hW := totalLen_pos s.line hp hne
  have hcb : ForwardConsistent (goToBeginOfLine s) :=
    goToBeginOfLine_consistent s hb hne hp (by omega) (by omega)
  have hx1 : (goToBeginOfLine s).index0 = s.beginIndex0 := rfl
  have hx2 : (goToBeginOfLine s).endIndex0 = s.endIndex0 := rfl
  have hx3 : (goToBeginOfLine s).line = s.line := rfl
  unfold forwardTraversal
  have heq := travLoop_eq ((s.endIndex0 - s.beginIndex0).toNat + 1) (goToBeginOfLine s)
    hcb (by rw [hx3]; exact hp) (by rw [hx1, hx2]; omega)
  rw [heq, hx1, hx2, hx3, hb, he]
  have h2 : ((totalLen s.line : Int) - (0 : Int)).toNat = totalLen s.line := by omega
  have h1 : ((0 : Int)).toNat = 0 := rfl
  rw [h2, h1, List.drop_zero, ← decode_length s.line]
  exact List.take_length (decode s.line)

theorem backLoop_eq (n : Nat) : ∀ s : Cursor, ForwardConsistent s → PosLens s.line →
    s.beginIndex0 = 0 → s.index0.toNat ≤ n →
    backLoop n s = ((decode s.line).take s.index0.toNat).reverse := by
  induction n with
  | zero =>
    intro s hc _ hb hn
    have h0 := hc.1
    have hz : s.index0.toNat = 0 := by omega
    rw [hz]
    rfl
  | succ n' ih =>
    intro s hc hp hb hn
    have h0 := hc.1
    by_cases hz : s.index0 = 0
    · rw [backLoop]
      have hguard : s.index0 ≤ s.beginIndex0 := by omega
      rw [if_pos hguard, hz]
      rfl
    · have h1i : 1 ≤ s.index0 := by omega
      have hguard : ¬ (s.index0 ≤ s.beginIndex0) := by omega
      rw [backLoop, if_neg hguard]
      have hfld := dec_fields s
      have hc2 : ForwardConsistent (dec s) := dec_consistent s hc hp h1i
      have hval : (runAt (dec s).line (dec s).realIndex).value =
          (decode (dec s).line).getD (dec s).index0.toNat 0 :=
        (consistent_pixel (dec s) hc2).symm
      have htail := ih (dec s) hc2 (by rw [hfld.2.2.2]; exact hp)
        (by rw [hfld.2.1]; exact hb) (by rw [hfld.1]; omega)
      rw [htail, hval, hfld.1, hfld.2.2.2]
      have hn1 : (s.index0 - 1).toNat = s.index0.toNat - 1 := by omega
      rw [hn1]
      have hcl : s.index0.toNat - 1 < (decode s.line).length := by
        rw [decode_length]
        have hcr := consistent_colRange s hc
        have := cumLen_le_totalLen s.line (s.realIndex + 1)
        omega
      rw [take_reverse_step (decode s.line) s.index0.toNat hcl (by omega)]

theorem backwardTraversal_eq_reverse (s : Cursor) (hp : PosLens s.line)
    (hne : s.line ≠ []) (hb : s.beginIndex0 = 0)
    (he : s.endIndex0 = (totalLen s.line : Int)) :
    backwardTraversal s = (decode s.line).reverse := by
  have hW := totalLen_pos s.line hp hne
  obtain ⟨hc1, hi1, hb1, hl1⟩ := dec_goToEnd_consistent s hp hne he
  unfold backwardTraversal
  rw [backLoop]
  have hguard : ¬ ((goToEndOfLine s).index0 ≤ (goToEndOfLine s).beginIndex0) := by
    simp only [goToEndOfLine]
    omega
  rw [if_neg hguard]
  have hval : (runAt (dec (goToEndOfLine s)).line (dec (goToEndOfLine s)).realIndex).value =
      (decode (dec (goToEndOfLine s)).line).getD (dec (goToEndOfLine s)).index0.toNat 0 :=
    (consistent_pixel (dec (goToEndOfLine s)) hc1).symm
  have hfuel : ((s.endIndex0 - s.beginIndex0).toNat + 1) - 1 = (s.endIndex0 - s.beginIndex0).toNat :=
    rfl
  have htail := backLoop_eq (s.endIndex0 - s.beginIndex0).toNat (dec (goToEndOfLine s))
    hc1 (by rw [hl1]; exact hp) (by rw [hb1]; exact hb) (by rw [hi1]; omega)
  rw [htail, hval, hi1, hl1]
  have hn1 : (s.endIndex0 - 1).toNat = totalLen s.line - 1 := by omega
  rw [hn1]
  have hcl : totalLen s.line - 1 < (decode s.line).length := by
    rw [decode_length]
    omega
  have hrev := take_reverse_step (decode s.line) (totalLen s.line) (by omega) (by omega)
  rw [← hrev]
  have hfull : (decode s.line).take (totalLen s.line) = decode s.line := by
    rw [← decode_length s.line]
    exact List.take_length (decode s.line)
  rw [hfull]

theorem seekRun_spec (runs : List RLRun) (c : Nat) (hp : PosLens runs)
    (hc : c < totalLen runs) :
    (seekRun runs c).1 < runs.length ∧
    1 ≤ (seekRun runs c).2 ∧
    (seekRun runs c).2 ≤ (runAt runs (seekRun runs c).1).length ∧
    c + (seekRun runs c).2 = cumLen runs ((seekRun runs c).1 + 1) := by
  induction runs generalizing c with
  | nil => simp [totalLen] at hc
  | cons r rest ih =>
    by_cases h : c < r.length
    · simp only [seekRun, if_pos h]
      refine ⟨by simp, by omega, ?_, ?_⟩
      · simp only [runAt, List.getD_cons_zero]
        omega
      · simp only [cumLen, cumLen_zero]
        omega
    · have hr : r.length ≤ c := by omega
      have hp' : PosLens rest := fun x hx => hp x (List.mem_cons_of_mem r hx)
      have hc' : c - r.length < totalLen rest := by
        simp only [totalLen] at hc
        omega
      obtain ⟨i1, i2, i3, i4⟩ := ih (c - r.length) hp' hc'
      simp only [seekRun, if_neg h]
      refine ⟨by simpa using i1, i2, ?_, ?_⟩
      · simpa only [runAt, List.getD_cons_succ] using i3
      · simp only [cumLen]
        omega

theorem setIndexInternal_consistent (newLine : List RLRun) (s : Cursor) (ind : Int)
    (hp : PosLens newLine) (h0 : 0 ≤ ind) (h1 : ind < s.endIndex0)
    (h2 : s.endIndex0 ≤ (totalLen newLine : Int)) :
    ForwardConsistent (setIndexInternal newLine s ind) := by
  have hc : ind.toNat < totalLen newLine := by omega
  obtain ⟨i1, i2, i3, i4⟩ := seekRun_spec newLine ind.toNat hp hc
  unfold setIndexInternal
  refine ⟨?_, ?_, ?_, ?_, ?_, ?_, ?_⟩ <;> (try dsimp only) <;> omega

theorem Cursor.ext_fields (a b : Cursor) (h1 : a.index0 = b.index0)
    (h2 : a.beginIndex0 = b.beginIndex0) (h3 : a.endIndex0 = b.endIndex0)
    (h4 : a.realIndex = b.realIndex) (h5 : a.segmentRemainder = b.segmentRemainder)
    (h6 : a.line = b.line) : a = b := by
  cases a
  cases b
  dsimp only at h1 h2 h3 h4 h5 h6
  subst h1
  subst h2
  subst h3
  subst h4
  subst h5
  subst h6
  rfl

/-- C1: for a cursor not at end-of-line (with a valid remainder, as the
invariant of spec section 3 guarantees there), operator++ increments
`index0` and decrements `segmentRemainder`; if the new remainder is
positive nothing else changes; else if `index0` reached `endIndex0` the
remainder stays 0 and `realIndex` is unchanged; else `realIndex` is
incremented and the remainder reloaded from the new run's length. -/
theorem step_forward_effect (s : Cursor) (hne : isAtEndOfLine s = false)
    (hr : 1 ≤ s.segmentRemainder) :
    (inc s).index0 = s.index0 + 1 ∧
    (2 ≤ s.segmentRemainder →
       inc s = { s with index0 := s.index0 + 1,
                        segmentRemainder := s.segmentRemainder - 1 }) ∧
    (s.segmentRemainder = 1 → s.index0 + 1 = s.endIndex0 →
       inc s = { s with index0 := s.index0 + 1, segmentRemainder := 0 }) ∧
    (s.segmentRemainder = 1 → s.index0 + 1 ≠ s.endIndex0 →
       inc s = { s with index0 := s.index0 + 1, realIndex := s.realIndex + 1,
                        segmentRemainder := (runAt s.line (s.realIndex + 1)).length }) :=
  ⟨(inc_fields s).1, fun h => inc_of_rem_gt s h,
   fun h1 h2 => inc_of_line_end s h1 h2, fun h1 h2 => inc_of_cross s h1 h2⟩

/-- Witness: step_forward_effect applied at a concrete run-boundary
crossing. -/
theorem step_forward_effect_witness :
    isAtEndOfLine (⟨2, 0, 9, 0, 1, demoRuns⟩ : Cursor) = false ∧
    inc (⟨2, 0, 9, 0, 1, demoRuns⟩ : Cursor) =
      { (⟨2, 0, 9, 0, 1, demoRuns⟩ : Cursor) with
        index0 := (2 : Int) + 1, realIndex := 0 + 1,
        segmentRemainder := (runAt demoRuns (0 + 1)).length } :=
  ⟨by decide,
   (step_forward_effect ⟨2, 0, 9, 0, 1, demoRuns⟩ (by decide) (by decide)).2.2.2
     (by decide) (by decide)⟩

/-- C2: operator-- decrements `index0` and increments `segmentRemainder`;
if the resulting remainder still fits in run `realIndex` nothing else
changes; otherwise (with a previous run to move to) `realIndex` is
decremented and the remainder is set to exactly 1. -/
theorem step_backward_effect (s : Cursor) :
    (dec s).index0 = s.index0 - 1 ∧
    (s.segmentRemainder + 1 ≤ (runAt s.line s.realIndex).length →
       dec s = { s with index0 := s.index0 - 1,
                        segmentRemainder := s.segmentRemainder + 1 }) ∧
    ((runAt s.line s.realIndex).length < s.segmentRemainder + 1 → 1 ≤ s.realIndex →
       dec s = { s with index0 := s.index0 - 1, realIndex := s.realIndex - 1,
                        segmentRemainder := 1 }) :=
  ⟨(dec_fields s).1, fun h => dec_of_stay s h, fun h _ => dec_of_cross s h⟩

/-- Witness: step_backward_effect applied at a concrete run-boundary
crossing. -/
theorem step_backward_effect_witness :
    ((runAt demoRuns 1).length < 2 + 1) ∧
    dec (⟨3, 0, 9, 1, 2, demoRuns⟩ : Cursor) =
      { (⟨3, 0, 9, 1, 2, demoRuns⟩ : Cursor) with
        index0 := (3 : Int) - 1, realIndex := 1 - 1, segmentRemainder := 1 } :=
  ⟨by decide,
   (step_backward_effect ⟨3, 0, 9, 1, 2, demoRuns⟩).2.2 (by decide) (by decide)⟩

/-- C5: from a forward-consistent state inside the region, one forward
step followed by one backward step restores the exact prior
(index0, realIndex, segmentRemainder) triple, run-boundary crossings
included. -/
theorem forward_backward_inverse (s : Cursor) (hc : ForwardConsistent s)
    (hp : PosLens s.line) (hb : s.beginIndex0 ≤ s.index0) : dec (inc s) = s := by
  obtain ⟨h0, h1, h2, h3, h4, h5, h6⟩ := hc
  by_cases hr : 2 ≤ s.segmentRemainder
  · rw [inc_of_rem_gt s hr, dec_of_stay _ (by dsimp only; omega)]
    apply Cursor.ext_fields <;> (try dsimp only) <;> first | omega | rfl
  · have hr1 : s.segmentRemainder = 1 := by omega
    by_cases hend : s.index0 + 1 = s.endIndex0
    · rw [inc_of_line_end s hr1 hend, dec_of_stay _ (by dsimp only; omega)]
      apply Cursor.ext_fields <;> (try dsimp only) <;> first | omega | rfl
    · rw [inc_of_cross s hr1 hend, dec_of_cross _ (by dsimp only; omega)]
      apply Cursor.ext_fields <;> (try dsimp only) <;> first | omega | rfl

/-- Witness: forward_backward_inverse at a concrete consistent state. -/
theorem forward_backward_inverse_witness :
    ForwardConsistent (⟨3, 0, 9, 1, 2, demoRuns⟩ : Cursor) ∧
    dec (inc ⟨3, 0, 9, 1, 2, demoRuns⟩) = (⟨3, 0, 9, 1, 2, demoRuns⟩ : Cursor) :=
  ⟨by decide,
   forward_backward_inverse ⟨3, 0, 9, 1, 2, demoRuns⟩ (by decide) (by decide) (by decide)⟩

/-- C9: goToEndOfLine sets `index0 = endIndex0`, `realIndex` to the last
run of the line and `segmentRemainder = 0`, and `isAtEndOfLine()` then
holds. -/
theorem goToEndOfLine_spec (s : Cursor) :
    (goToEndOfLine s).index0 = s.endIndex0 ∧
    (goToEndOfLine s).realIndex = s.line.length - 1 ∧
    (goToEndOfLine s).segmentRemainder = 0 ∧
    isAtEndOfLine (goToEndOfLine s) = true :=
  ⟨rfl, rfl, rfl, by simp [isAtEndOfLine, goToEndOfLine]⟩

/-- C10: from a forward-consistent state at `endIndex0 - 1` whose
remainder is at least 2 (the clipped end lies strictly inside the current
run), a forward step lands at end-of-line with the remainder decremented
but still positive and `realIndex` unchanged, the current run straddles
`endIndex0`, and the resulting at-end state differs from the one
goToEndOfLine builds (whose remainder is 0). -/
theorem end_inside_run_spec (s : Cursor) (hc : ForwardConsistent s)
    (hend : s.index0 = s.endIndex0 - 1) (hr : 2 ≤ s.segmentRemainder) :
    isAtEndOfLine (inc s) = true ∧
    (inc s).segmentRemainder = s.segmentRemainder - 1 ∧
    0 < (inc s).segmentRemainder ∧
    (inc s).realIndex = s.realIndex ∧
    (cumLen s.line s.realIndex : Int) < s.endIndex0 ∧
    s.endIndex0 < (cumLen s.line (s.realIndex + 1) : Int) ∧
    (inc s).segmentRemainder ≠ (goToEndOfLine (inc s)).segmentRemainder := by
  obtain ⟨h0, h1, h2, h3, h4, h5, h6⟩ := hc
  have hsucc := cumLen_succ s.line s.realIndex h3
  rw [inc_of_rem_gt s hr]
  refine ⟨by simp only [isAtEndOfLine]; (try dsimp only); simp only [beq_iff_eq]; omega,
    rfl, by (try dsimp only); omega, rfl, by omega, by omega,
    by (try dsimp only [goToEndOfLine]); omega⟩

/-- Witness: end_inside_run_spec at a concrete clipped region whose end
column is inside the last run. -/
theorem end_inside_run_spec_witness :
    ForwardConsistent (⟨6, 0, 7, 2, 3, demoRuns⟩ : Cursor) ∧
    isAtEndOfLine (inc ⟨6, 0, 7, 2, 3, demoRuns⟩) = true ∧
    0 < (inc (⟨6, 0, 7, 2, 3, demoRuns⟩ : Cursor)).segmentRemainder := by
  have h := end_inside_run_spec ⟨6, 0, 7, 2, 3, demoRuns⟩ (by decide) (by decide) (by decide)
  exact ⟨by decide, h.1, h.2.2.1⟩

/-- C3: a forward step that keeps the cursor strictly before end-of-line
preserves the forward-consistency invariant (bounds, remainder range, and
the decoded pixel at `index0` agreeing with `run[realIndex].value`), and
goToBeginOfLine establishes it under its alignment precondition. -/
theorem invariant_preserved (s t : Cursor) (hc : ForwardConsistent s)
    (hp : PosLens s.line) (hstep : s.index0 + 1 < s.endIndex0)
    (htb : t.beginIndex0 = 0) (htne : t.line ≠ []) (htp : PosLens t.line)
    (hte1 : 0 < t.endIndex0) (hte2 : t.endIndex0 ≤ (totalLen t.line : Int)) :
    (ForwardConsistent (inc s) ∧
     pixelAt (inc s).line (inc s).index0.toNat =
       (runAt (inc s).line (inc s).realIndex).value) ∧
    (ForwardConsistent (goToBeginOfLine t) ∧
     pixelAt (goToBeginOfLine t).line (goToBeginOfLine t).index0.toNat =
       (runAt (goToBeginOfLine t).line (goToBeginOfLine t).realIndex).value) := by
  have h1 := inc_consistent s hc hp hstep
  have h2 := goToBeginOfLine_consistent t htb htne htp hte1 hte2
  exact ⟨⟨h1, consistent_pixel _ h1⟩, ⟨h2, consistent_pixel _ h2⟩⟩

/-- Witness: invariant_preserved at a concrete consistent state and a
concrete aligned line start. -/
theorem invariant_preserved_witness :
    ForwardConsistent (inc (⟨3, 0, 9, 1, 2, demoRuns⟩ : Cursor)) ∧
    ForwardConsistent (goToBeginOfLine (⟨0, 0, 9, 0, 3, demoRuns⟩ : Cursor)) := by
  have h := invariant_preserved ⟨3, 0, 9, 1, 2, demoRuns⟩ ⟨0, 0, 9, 0, 3, demoRuns⟩
    (by decide) (by decide) (by decide) (by decide) (by decide) (by decide)
    (by decide) (by decide)
  exact ⟨h.1.1, h.2.1⟩

/-- C4: for a line of runs with positive lengths and a region covering the
full line, the forward traversal from goToBeginOfLine to isAtEndOfLine
visits exactly `totalLen runs` pixels and the i-th observed value is the
value of the run whose cumulative range contains i. -/
theorem roundtrip_decode (runs : List RLRun) (s : Cursor) (hp : PosLens runs)
    (hne : runs ≠ []) (hline : s.line = runs) (hb : s.beginIndex0 = 0)
    (he : s.endIndex0 = (totalLen runs : Int)) :
    (forwardTraversal s).length = totalLen runs ∧
    ∀ i j, j < runs.length → cumLen runs j ≤ i → i < cumLen runs (j + 1) →
      (forwardTraversal s).getD i 0 = (runAt runs j).value := by
  have hfd : forwardTraversal s = decode runs := by
    have heq := forwardTraversal_eq_decode s (by rw [hline]; exact hp)
      (by rw [hline]; exact hne) hb (by rw [hline]; exact he)
    rw [heq, hline]
  rw [hfd]
  exact ⟨decode_length runs, fun i j hj hle hlt => decode_getD runs j i hj hle hlt⟩

/-- Witness: roundtrip_decode on the sample line; pixel 4 lies in run 1. -/
theorem roundtrip_decode_witness :
    (forwardTraversal ⟨0, 0, 9, 0, 0, demoRuns⟩).length = totalLen demoRuns ∧
    (forwardTraversal ⟨0, 0, 9, 0, 0, demoRuns⟩).getD 4 0 = (runAt demoRuns 1).value := by
  have h := roundtrip_decode demoRuns ⟨0, 0, 9, 0, 0, demoRuns⟩ (by decide) (by decide)
    rfl rfl (by decide)
  exact ⟨h.1, h.2 4 1 (by decide) (by decide) (by decide)⟩

/-- C6 counterexample: with the region clipped to columns [0,2) of a line
whose runs are (3,10),(2,20), goToEndOfLine points at the last run, so the
backward sweep observes 20,20 while the forward traversal observes 10,10 —
the claim fails for a region that does not cover the full line. -/
theorem reverse_traversal_cex :
    backwardTraversal ⟨0, 0, 2, 0, 0, [⟨3, 10⟩, ⟨2, 20⟩]⟩ ≠
      (forwardTraversal ⟨0, 0, 2, 0, 0, [⟨3, 10⟩, ⟨2, 20⟩]⟩).reverse := by
  decide

/-- C6 (amended to regions covering the full line): goToEndOfLine followed
by backward steps until `index0` reaches `beginIndex0` observes the same
pixel values, in reverse order, as the full forward traversal from
goToBeginOfLine. -/
theorem reverse_traversal_full_region (s : Cursor) (hp : PosLens s.line)
    (hne : s.line ≠ []) (hb : s.beginIndex0 = 0)
    (he : s.endIndex0 = (totalLen s.line : Int)) :
    backwardTraversal s = (forwardTraversal s).reverse := by
  rw [backwardTraversal_eq_reverse s hp hne hb he,
    forwardTraversal_eq_decode s hp hne hb he]

/-- Witness: reverse_traversal_full_region on the sample full-width
line. -/
theorem reverse_traversal_full_region_witness :
    backwardTraversal ⟨0, 0, 9, 0, 0, demoRuns⟩ =
      (forwardTraversal ⟨0, 0, 9, 0, 0, demoRuns⟩).reverse :=
  reverse_traversal_full_region ⟨0, 0, 9, 0, 0, demoRuns⟩ (by decide) (by decide)
    rfl (by decide)

/-- C7: NextLine advances the line enumerator; while lines remain it
reseats the cursor at `beginIndex0` of the new line through the general
seek (yielding a forward-consistent state there); once the enumerator is
exhausted it only sets `index0 = beginIndex0` as an at-end sentinel and
never faults. -/
theorem nextLine_spec (m : MCursor) (h0 : 0 ≤ m.cur.beginIndex0)
    (h1 : m.cur.beginIndex0 < m.cur.endIndex0)
    (h2 : m.pos + 1 < m.lines.length → PosLens (m.lines.getD (m.pos + 1) []) ∧
          m.cur.endIndex0 ≤ (totalLen (m.lines.getD (m.pos + 1) []) : Int)) :
    (nextLine m).pos = m.pos + 1 ∧
    (m.pos + 1 < m.lines.length →
       (nextLine m).cur.index0 = m.cur.beginIndex0 ∧
       (nextLine m).cur.line = m.lines.getD (m.pos + 1) [] ∧
       ForwardConsistent (nextLine m).cur) ∧
    (m.lines.length ≤ m.pos + 1 →
       nextLine m = { m with pos := m.pos + 1,
                             cur := { m.cur with index0 := m.cur.beginIndex0 } }) := by
  by_cases hlt : m.pos + 1 < m.lines.length
  · obtain ⟨hpl, hle⟩ := h2 hlt
    have hcons : ForwardConsistent
        (setIndexInternal (m.lines.getD (m.pos + 1) []) m.cur m.cur.beginIndex0) :=
      setIndexInternal_consistent _ m.cur _ hpl h0 h1 hle
    unfold nextLine
    rw [if_pos hlt]
    exact ⟨rfl, fun _ => ⟨rfl, rfl, hcons⟩, fun hge => absurd hlt (by omega)⟩
  · unfold nextLine
    rw [if_neg hlt]
    exact ⟨rfl, fun h => absurd h hlt, fun _ => rfl⟩

/-- Witness: nextLine_spec on a two-line region, stepping from the first
line to the second. -/
theorem nextLine_spec_witness :
    (nextLine ⟨[[⟨2, 5⟩], [⟨2, 7⟩]], 0, ⟨0, 0, 2, 0, 2, [⟨2, 5⟩]⟩⟩).pos = 0 + 1 ∧
    ForwardConsistent (nextLine ⟨[[⟨2, 5⟩], [⟨2, 7⟩]], 0, ⟨0, 0, 2, 0, 2, [⟨2, 5⟩]⟩⟩).cur := by
  have h := nextLine_spec ⟨[[⟨2, 5⟩], [⟨2, 7⟩]], 0, ⟨0, 0, 2, 0, 2, [⟨2, 5⟩]⟩⟩
    (by decide) (by decide) (fun _ => ⟨by decide, by decide⟩)
  exact ⟨h.1, (h.2.1 (by decide)).2.2⟩

/-- C8: goToBeginOfLine sets `index0 = beginIndex0`, `realIndex = 0` and
`segmentRemainder = run[0].length`, and, when `beginIndex0` is aligned
with the start of the full line (and the region is nonempty and within the
line), leaves the cursor in an Active, forward-consistent state. -/
theorem goToBeginOfLine_spec (s : Cursor) :
    (goToBeginOfLine s).index0 = s.beginIndex0 ∧
    (goToBeginOfLine s).realIndex = 0 ∧
    (goToBeginOfLine s).segmentRemainder = (runAt s.line 0).length ∧
    (s.beginIndex0 = 0 → s.line ≠ [] → PosLens s.line → 0 < s.endIndex0 →
       s.endIndex0 ≤ (totalLen s.line : Int) → ForwardConsistent (goToBeginOfLine s)) :=
  ⟨rfl, rfl, rfl, fun hb hne hp he1 he2 => goToBeginOfLine_consistent s hb hne hp he1 he2⟩

/-- Witness: goToBeginOfLine_spec on the sample line with an aligned
region. -/
theorem goToBeginOfLine_spec_witness :
    (goToBeginOfLine (⟨5, 0, 9, 2, 1, demoRuns⟩ : Cursor)).index0 = 0 ∧
    ForwardConsistent (goToBeginOfLine (⟨5, 0, 9, 2, 1, demoRuns⟩ : Cursor)) := by
  have h := goToBeginOfLine_spec ⟨5, 0, 9, 2, 1, demoRuns⟩
  exact ⟨h.1, h.2.2.2 rfl (by decide) (by decide) (by decide) (by decide)⟩

end RLE
